import Mathlib

/-!
Verification of the candidate-set reasoning engine of `BullsCowsYL.py`
(repository EntropyExam): universe generation, bulls/cows comparison,
entropy, mutual information, pruning, suggestion and the game session.

Modelling conventions used throughout this file:
* a Python `str` is modelled as the list of its Unicode code points
  (`List ℕ`); `str.isnumeric` is "non-empty and every character of
  Unicode numeric type Decimal, Digit or Numeric", and that character
  class is transcribed in `isNumericCp` on the code-point ranges this
  development ever decides it on (the ASCII range, the Latin-1
  superscripts and fractions, the Arabic-Indic digits, the superscript
  digits) — it properly contains the decimal digits `'0'..'9'`, which
  is what decides claim C1;
* CPython floats are modelled as real numbers (`ℝ`), `math.log2` as
  `Real.logb 2`;
* `random.choice(self.possible_combinations)` is modelled by passing the
  chosen secret as a parameter together with the fact that it belongs to
  the list it was drawn from;
* the mutable `BullsCows` object is modelled as an explicit state record
  threaded through `make_guess` (the derived field `initial_entropy`,
  which is written once in `__init__` and only ever printed by the
  interactive loop, is not part of the state record).
-/

set_option maxRecDepth 100000

namespace BullsCows

/-- A Python string: the list of its character code points. -/
abbrev Str := List Nat

/-- Code point of an ASCII decimal digit, `'0'..'9'`. -/
def isDigitCp (c : Nat) : Bool := decide (48 ≤ c ∧ c ≤ 57)

/-- The character class accepted by CPython's `str.isnumeric()`:
characters of Unicode numeric type Decimal, Digit or Numeric.  The
Unicode table is transcribed here on the ranges this development ever
decides the class on: the ASCII range (where only `'0'..'9'` are
numeric), the Latin-1 superscripts `'¹' '²' '³'` (178, 179, 185) and
vulgar fractions `'¼' '½' '¾'` (188..190), the Arabic-Indic digits
(1632..1641), and the superscript digits `'⁰'` (8304) and `'⁴'..'⁹'`
(8308..8313).  It properly contains the decimal digits. -/
def isNumericCp (c : Nat) : Bool :=
  decide ((48 ≤ c ∧ c ≤ 57) ∨
    c = 178 ∨ c = 179 ∨ c = 185 ∨ (188 ≤ c ∧ c ≤ 190) ∨
    (1632 ≤ c ∧ c ≤ 1641) ∨
    c = 8304 ∨ (8308 ≤ c ∧ c ≤ 8313))

/-- Python `str.isnumeric()`: non-empty and all characters numeric. -/
def isnumeric (s : Str) : Bool := !s.isEmpty && s.all isNumericCp

/-- Code point of the decimal digit `d`, as produced by the f-string
`f"{d1}{d2}{d3}{d4}"` for `d < 10`. -/
def digitCp (d : Nat) : Nat := 48 + d

/-- `BullsCows.generate_all_numbers`: the four nested loops over
`range(10)`, each inner loop skipping the digits already used, appending
the string `f"{d1}{d2}{d3}{d4}"`. -/
def generate_all_numbers : List Str :=
  (List.range 10).flatMap fun d1 =>
    ((List.range 10).filter fun d2 => d2 != d1).flatMap fun d2 =>
      ((List.range 10).filter fun d3 => d3 != d1 && d3 != d2).flatMap fun d3 =>
        ((List.range 10).filter fun d4 => d4 != d1 && d4 != d2 && d4 != d3).map fun d4 =>
          [digitCp d1, digitCp d2, digitCp d3, digitCp d4]

/-- Strict lexicographic order on strings, comparing code points position
by position (shorter strict prefixes first). -/
def lexLt : Str → Str → Bool
  | [], [] => false
  | [], _ :: _ => true
  | _ :: _, [] => false
  | a :: as, b :: bs => decide (a < b) || (a == b && lexLt as bs)

/-- `BullsCows.evaluate_possible_secret(guess, possible_secret)`:
`bulls = sum(1 for g, s in zip(guess, possible_secret) if g == s)`,
`cows = sum(1 for g in guess if g in possible_secret) - bulls`.
The subtraction is Python `int` subtraction, hence the codomain `ℤ` for
cows. -/
def evaluate_possible_secret (guess possible_secret : Str) : Nat × Int :=
  let bulls := (guess.zip possible_secret).countP fun p => p.1 == p.2
  let cows : Int := ((guess.countP fun c => possible_secret.contains c : Nat) : Int) - (bulls : Int)
  (bulls, cows)

/-- The mutable state of a `BullsCows` object: the shrinking candidate
list `possible_combinations`, the fixed `secret`, and the guess history
`guesses` of `(guess, bulls, cows)` triples. -/
structure BullsCowsState where
  possible_combinations : List Str
  secret : Str
  guesses : List (Str × Nat × Int)

/-- `BullsCows.__init__`, with the result of
`random.choice(self.possible_combinations)` passed in as `secret`. -/
def BullsCows_init (secret : Str) : BullsCowsState :=
  { possible_combinations := generate_all_numbers
    secret := secret
    guesses := [] }

/-- `BullsCows.get_feedback(guess)`: identical arithmetic to
`evaluate_possible_secret`, but against the session's own secret. -/
def get_feedback (st : BullsCowsState) (guess : Str) : Nat × Int :=
  let bulls := (guess.zip st.secret).countP fun p => p.1 == p.2
  let cows : Int := ((guess.countP fun c => st.secret.contains c : Nat) : Int) - (bulls : Int)
  (bulls, cows)

/-- `BullsCows.update_possibilities(guess, bulls, cows)`: keep exactly the
candidates whose feedback against `guess` equals `(bulls, cows)`. -/
def update_possibilities (l : List Str) (guess : Str) (bulls : Nat) (cows : Int) : List Str :=
  l.filter fun possible_secret =>
    decide (evaluate_possible_secret guess possible_secret = (bulls, cows))

/-! ### The candidate universe (claim C7) -/

/-- Each of the ten blocks of `generate_all_numbers` (one per leading
digit) contains `9 * 8 * 7 = 504` strings. -/
lemma generate_block_length : ∀ d1 : Fin 10,
    ((((List.range 10).filter fun d2 => d2 != d1.val).flatMap fun d2 =>
      (((List.range 10).filter fun d3 => d3 != d1.val && d3 != d2).flatMap fun d3 =>
        (((List.range 10).filter fun d4 => d4 != d1.val && d4 != d2 && d4 != d3).map fun d4 =>
          [digitCp d1.val, digitCp d2, digitCp d3, digitCp d4])))).length = 504 := by
  decide

/-- The universe has exactly `10 * 9 * 8 * 7 = 5040` elements. -/
lemma generate_all_numbers_length : generate_all_numbers.length = 5040 := by
  unfold generate_all_numbers
  rw [List.length_flatMap]
  rw [List.map_congr_left (g := fun _ => 504)
    (fun d1 hd1 => generate_block_length ⟨d1, List.mem_range.mp hd1⟩)]
  decide

/-- Membership in the universe is exactly the code invariant: four
characters, pairwise distinct, all decimal digits. -/
lemma mem_generate_all_numbers (s : Str) :
    s ∈ generate_all_numbers ↔
      s.length = 4 ∧ s.Nodup ∧ ∀ c ∈ s, isDigitCp c = true := by
  constructor
  · intro hs
    simp only [generate_all_numbers, List.mem_flatMap, List.mem_filter, List.mem_map,
      List.mem_range, Bool.and_eq_true, bne_iff_ne, ne_eq] at hs
    obtain ⟨d1, hd1, d2, ⟨hd2, h21⟩, d3, ⟨hd3, h31, h32⟩, d4, ⟨hd4, ⟨h41, h42⟩, h43⟩, rfl⟩ := hs
    refine ⟨rfl, ?_, ?_⟩
    · simp only [List.nodup_cons, List.mem_cons, List.not_mem_nil, or_false,
        List.nodup_nil, and_true, digitCp, not_false_eq_true, not_or]
      omega
    · intro c hc
      simp only [List.mem_cons, List.not_mem_nil, or_false] at hc
      rcases hc with rfl | rfl | rfl | rfl <;> · simp only [isDigitCp, digitCp, decide_eq_true_eq]; omega
  · rintro ⟨hlen, hnodup, hdigits⟩
    obtain ⟨c1, c2, c3, c4, rfl⟩ : ∃ a b c d, s = [a, b, c, d] := by
      rcases s with _ | ⟨a, _ | ⟨b, _ | ⟨c, _ | ⟨d, _ | _⟩⟩⟩⟩ <;> simp_all
    have h1 := hdigits c1 (by simp)
    have h2 := hdigits c2 (by simp)
    have h3 := hdigits c3 (by simp)
    have h4 := hdigits c4 (by simp)
    simp only [isDigitCp, decide_eq_true_eq] at h1 h2 h3 h4
    simp only [List.nodup_cons, List.mem_cons, List.not_mem_nil, or_false,
      List.nodup_nil, and_true, not_or] at hnodup
    simp only [generate_all_numbers, List.mem_flatMap, List.mem_filter, List.mem_map,
      List.mem_range, Bool.and_eq_true, bne_iff_ne, ne_eq]
    refine ⟨c1 - 48, by omega, c2 - 48, ⟨by omega, by omega⟩,
      c3 - 48, ⟨by omega, by omega, by omega⟩,
      c4 - 48, ⟨by omega, ⟨by omega, by omega⟩, by omega⟩, ?_⟩
    simp only [digitCp, List.cons.injEq, and_true]
    omega

/-- If two strings share the prefix `pre` and then diverge with `a < b`,
the first is lexicographically smaller. -/
lemma lexLt_append_of_lt (pre : Str) {a b : Nat} (h : a < b) (as bs : Str) :
    lexLt (pre ++ a :: as) (pre ++ b :: bs) = true := by
  induction pre with
  | nil =>
    simp only [List.nil_append, lexLt, Bool.or_eq_true, decide_eq_true_eq]
    exact Or.inl h
  | cons p pre ih =>
    simp only [List.cons_append, lexLt, Bool.or_eq_true, decide_eq_true_eq,
      Bool.and_eq_true, beq_self_eq_true, true_and, lt_self_iff_false, false_or]
    exact ih

/-- Sortedness of a block of the generator: if the blocks for the digits
`d ∈ l` are each sorted, all start with `pre ++ [digitCp d]`, and `l` is
strictly increasing, the concatenation is sorted. -/
lemma pairwise_lexLt_flatMap (pre : Str) {l : List Nat} (hl : l.Pairwise (· < ·))
    {f : Nat → List Str}
    (hsorted : ∀ d ∈ l, (f d).Pairwise (fun a b => lexLt a b = true))
    (hshape : ∀ d ∈ l, ∀ s ∈ f d, ∃ t, s = pre ++ digitCp d :: t) :
    (l.flatMap f).Pairwise (fun a b => lexLt a b = true) := by
  rw [List.pairwise_flatMap]
  refine ⟨hsorted, ?_⟩
  refine List.Pairwise.imp_of_mem ?_ hl
  intro a b ha hb hab x hx y hy
  obtain ⟨t, rfl⟩ := hshape a ha x hx
  obtain ⟨t', rfl⟩ := hshape b hb y hy
  exact lexLt_append_of_lt pre (by simp only [digitCp]; omega) t t'

/-- The generator enumerates in lexicographic order, digit by digit. -/
lemma pairwise_lexLt_generate_all_numbers :
    generate_all_numbers.Pairwise (fun a b => lexLt a b = true) := by
  unfold generate_all_numbers
  refine pairwise_lexLt_flatMap [] (List.pairwise_lt_range 10) (fun d1 _ => ?_) ?_
  · refine pairwise_lexLt_flatMap [digitCp d1]
      ((List.pairwise_lt_range 10).filter _) (fun d2 _ => ?_) ?_
    · refine pairwise_lexLt_flatMap [digitCp d1, digitCp d2]
        ((List.pairwise_lt_range 10).filter _) (fun d3 _ => ?_) ?_
      · rw [List.pairwise_map]
        refine List.Pairwise.imp ?_ ((List.pairwise_lt_range 10).filter _)
        intro a b hab
        exact lexLt_append_of_lt [digitCp d1, digitCp d2, digitCp d3]
          (by simp only [digitCp]; omega) [] []
      · intro d3 _ s hs
        simp only [List.mem_map] at hs
        obtain ⟨d4, _, rfl⟩ := hs
        exact ⟨[digitCp d4], rfl⟩
    · intro d2 _ s hs
      simp only [List.mem_flatMap, List.mem_map] at hs
      obtain ⟨d3, _, d4, _, rfl⟩ := hs
      exact ⟨[digitCp d3, digitCp d4], rfl⟩
  · intro d1 _ s hs
    simp only [List.mem_flatMap, List.mem_map] at hs
    obtain ⟨d2, _, d3, _, d4, _, rfl⟩ := hs
    exact ⟨[digitCp d2, digitCp d3, digitCp d4], rfl⟩

/-- C7: `generate_all_numbers` deterministically returns a list of exactly
5040 strings, containing every length-4 string of pairwise-distinct
decimal digits and nothing else, enumerated in lexicographic order by
digit value, position by position. -/
theorem generate_all_numbers_spec :
    generate_all_numbers.length = 5040 ∧
    (∀ s : Str, s ∈ generate_all_numbers ↔
      s.length = 4 ∧ s.Nodup ∧ ∀ c ∈ s, isDigitCp c = true) ∧
    generate_all_numbers.Pairwise (fun a b => lexLt a b = true) :=
  ⟨generate_all_numbers_length, mem_generate_all_numbers,
    pairwise_lexLt_generate_all_numbers⟩

/-! ### The candidate pruner (claim C3) -/

/-- C3: `update_possibilities(guess, bulls, cows)` replaces the candidate
set with exactly the subset of its current elements whose feedback against
`guess` is `(bulls, cows)`, so the pruned set is never larger than the
input. -/
theorem update_possibilities_spec (l : List Str) (guess : Str) (bulls : Nat) (cows : Int) :
    (∀ c : Str, c ∈ update_possibilities l guess bulls cows ↔
      c ∈ l ∧ evaluate_possible_secret guess c = (bulls, cows)) ∧
    (update_possibilities l guess bulls cows).length ≤ l.length := by
  constructor
  · intro c
    simp [update_possibilities, List.mem_filter]
  · exact List.length_filter_le _ _

/-! ### The feedback comparator (claims C8 and C10) -/

/-- Boolean membership agrees with membership. -/
lemma contains_iff_mem (l : List Nat) (c : Nat) : l.contains c = true ↔ c ∈ l := by
  simp [List.contains]

/-- Exact-position matches are a subcount of the anywhere-matches: each
position with `guess[i] == target[i]` also has `guess[i] ∈ target`. -/
lemma zip_countP_le (guess target : List Nat) :
    (guess.zip target).countP (fun p => p.1 == p.2) ≤
      guess.countP fun c => target.contains c := by
  induction guess generalizing target with
  | nil => simp
  | cons a as ih =>
    cases target with
    | nil => simp
    | cons b bs =>
      simp only [List.zip_cons_cons, List.countP_cons]
      have h1 := ih bs
      have h2 : (as.countP fun c => bs.contains c) ≤
          as.countP fun c => (b :: bs).contains c := by
        refine List.countP_mono_left fun c _ hc => ?_
        simp only [contains_iff_mem, List.mem_cons] at hc ⊢
        exact Or.inr hc
      have h3 : (if (a == b) = true then 1 else 0) ≤
          (if ((b :: bs).contains a) = true then 1 else 0) := by
        by_cases hab : a = b
        · subst hab
          simp [contains_iff_mem]
        · simp [hab]
      omega

/-- The code invariant on a guess or secret string: exactly four
characters, pairwise distinct, all decimal digits. -/
def wellFormedCode (s : Str) : Prop :=
  s.length = 4 ∧ s.Nodup ∧ ∀ c ∈ s, isDigitCp c = true

instance (s : Str) : Decidable (wellFormedCode s) := by
  unfold wellFormedCode
  infer_instance

/-- C8: for well-formed codes the comparator satisfies
`0 ≤ bulls ≤ 4`, `0 ≤ cows ≤ 4` and `bulls + cows ≤ 4`, with
`bulls + cows = 4` exactly when every guess symbol occurs in the secret. -/
theorem evaluate_possible_secret_bounds (guess target : Str)
    (hg : wellFormedCode guess) (ht : wellFormedCode target) :
    (evaluate_possible_secret guess target).1 ≤ 4 ∧
    0 ≤ (evaluate_possible_secret guess target).2 ∧
    (evaluate_possible_secret guess target).2 ≤ 4 ∧
    ((evaluate_possible_secret guess target).1 : Int) +
      (evaluate_possible_secret guess target).2 ≤ 4 ∧
    (((evaluate_possible_secret guess target).1 : Int) +
        (evaluate_possible_secret guess target).2 = 4 ↔
      ∀ c ∈ guess, c ∈ target) := by
  obtain ⟨hgl, -, -⟩ := hg
  obtain ⟨htl, -, -⟩ := ht
  have hzlen : (guess.zip target).length = 4 := by
    rw [List.length_zip, hgl, htl]
    rfl
  have hb4 : ((guess.zip target).countP fun p => p.1 == p.2) ≤ 4 :=
    hzlen ▸ List.countP_le_length _
  have hm4 : (guess.countP fun c => target.contains c) ≤ 4 :=
    hgl ▸ List.countP_le_length _
  have hbm := zip_countP_le guess target
  have hiff : (guess.countP fun c => target.contains c) = 4 ↔ ∀ c ∈ guess, c ∈ target := by
    rw [← hgl, List.countP_eq_length]
    constructor
    · intro h c hc
      exact (contains_iff_mem _ _).mp (h c hc)
    · intro h c hc
      exact (contains_iff_mem _ _).mpr (h c hc)
  simp only [evaluate_possible_secret]
  refine ⟨hb4, by omega, by omega, by omega, ?_⟩
  constructor
  · intro h
    exact hiff.mp (by omega)
  · intro h
    have := hiff.mpr h
    omega

/-- C10: `get_feedback(guess)` and `evaluate_possible_secret(guess,
secret)` compute the same pair when the latter is applied to the session's
secret — the two comparator implementations are equivalent. -/
theorem get_feedback_eq_evaluate_possible_secret (st : BullsCowsState) (guess : Str) :
    get_feedback st guess = evaluate_possible_secret guess st.secret := rfl

/-! ### The entropy calculator (claim C9) -/

/-- `BullsCows.calculate_entropy`, as a function of
`n = len(self.possible_combinations)`:
`if n == 0: return 0`, else `p = 1 / n; return n * p * log2(1 / p)`. -/
noncomputable def calculate_entropy (n : Nat) : ℝ :=
  if n = 0 then 0
  else (n : ℝ) * (1 / (n : ℝ)) * Real.logb 2 (1 / (1 / (n : ℝ)))

lemma calculate_entropy_zero : calculate_entropy 0 = 0 := by
  simp [calculate_entropy]

lemma calculate_entropy_eq_logb {n : Nat} (h : n ≠ 0) :
    calculate_entropy n = Real.logb 2 n := by
  have hn : (0 : ℝ) < n := by exact_mod_cast Nat.pos_of_ne_zero h
  rw [calculate_entropy, if_neg h, one_div_one_div]
  field_simp

lemma calculate_entropy_one : calculate_entropy 1 = 0 := by
  rw [calculate_entropy_eq_logb one_ne_zero]
  simp

/-- `12.29 < log2 5040 < 12.31`, by comparing the integer powers
`2 ^ 1229 < 5040 ^ 100 < 2 ^ 1231`. -/
lemma logb_5040_bounds : 12.29 < Real.logb 2 5040 ∧ Real.logb 2 5040 < 12.31 := by
  have hlow : (2 : ℝ) ^ (1229 : Nat) < (5040 : ℝ) ^ (100 : Nat) := by
    exact_mod_cast (by norm_num : (2 ^ 1229 : Nat) < 5040 ^ 100)
  have hup : (5040 : ℝ) ^ (100 : Nat) < (2 : ℝ) ^ (1231 : Nat) := by
    exact_mod_cast (by norm_num : (5040 ^ 100 : Nat) < 2 ^ 1231)
  have h1 : Real.logb 2 ((2 : ℝ) ^ (1229 : Nat)) < Real.logb 2 ((5040 : ℝ) ^ (100 : Nat)) :=
    Real.logb_lt_logb one_lt_two (pow_pos two_pos 1229) hlow
  have h2 : Real.logb 2 ((5040 : ℝ) ^ (100 : Nat)) < Real.logb 2 ((2 : ℝ) ^ (1231 : Nat)) :=
    Real.logb_lt_logb one_lt_two (pow_pos (by norm_num) 100) hup
  rw [Real.logb_pow, Real.logb_pow, Real.logb_self_eq_one one_lt_two] at h1 h2
  push_cast at h1 h2
  constructor <;> nlinarith

/-- C9: `calculate_entropy` over a candidate set of size `n` returns
`log2 n` for `n > 0` and `0` for `n = 0`; in particular `entropy 1 = 0`
and `entropy 5040` is within `0.01` of `12.30` bits. -/
theorem calculate_entropy_spec :
    (∀ n : Nat, 0 < n → calculate_entropy n = Real.logb 2 n) ∧
    calculate_entropy 0 = 0 ∧
    calculate_entropy 1 = 0 ∧
    |calculate_entropy 5040 - 12.30| ≤ 0.01 := by
  refine ⟨fun n hn => calculate_entropy_eq_logb (by omega),
    calculate_entropy_zero, calculate_entropy_one, ?_⟩
  rw [calculate_entropy_eq_logb (by norm_num)]
  have h := logb_5040_bounds
  have hc : ((5040 : Nat) : ℝ) = (5040 : ℝ) := by norm_num
  rw [hc, abs_le]
  constructor <;> nlinarith [h.1, h.2]

/-! ### The mutual information estimator (claim C4) -/

/-- The number of candidates in `l` whose feedback against `guess` is
`fb`: the value `feedback_counts[fb]` of the dictionary built by the loop
`for possible_secret in self.possible_combinations` in
`calculate_mutual_information`. -/
def feedback_count (l : List Str) (guess : Str) (fb : Nat × Int) : Nat :=
  (l.map fun possible_secret => evaluate_possible_secret guess possible_secret).countP
    fun x => decide (x = fb)

/-- The expected conditional entropy `H(X|Y)` loop of
`calculate_mutual_information`: the dictionary keys are the distinct
feedback values occurring in `l` (so every stored count is positive and
the `if count > 0` guard in the source is always taken), and each key
contributes `(count / total) * log2 count`. -/
noncomputable def conditional_entropy (l : List Str) (guess : Str) : ℝ :=
  ∑ fb ∈ (l.map fun possible_secret => evaluate_possible_secret guess possible_secret).toFinset,
    ((feedback_count l guess fb : ℝ) / (l.length : ℝ)) *
      Real.logb 2 (feedback_count l guess fb)

open Classical in
/-- `BullsCows.calculate_mutual_information(guess)`:
`current_entropy = self.calculate_entropy(); if current_entropy == 0:
return 0`, else return `current_entropy - conditional_entropy`. -/
noncomputable def calculate_mutual_information (l : List Str) (guess : Str) : ℝ :=
  if calculate_entropy l.length = 0 then 0
  else calculate_entropy l.length - conditional_entropy l guess

/-- Counting each distinct element of a list once with multiplicity gives
the length of the list. -/
lemma sum_toFinset_countP_eq_length {α : Type} [DecidableEq α] (l : List α) :
    ∑ a ∈ l.toFinset, l.countP (fun x => decide (x = a)) = l.length := by
  induction l with
  | nil => simp
  | cons x l ih =>
    have hcons : ∀ a ∈ l.toFinset,
        (x :: l).countP (fun y => decide (y = a)) =
          l.countP (fun y => decide (y = a)) + if x = a then 1 else 0 := by
      intro a _
      rw [List.countP_cons]
      simp only [decide_eq_true_eq]
    rw [List.toFinset_cons]
    by_cases hx : x ∈ l.toFinset
    · rw [Finset.insert_eq_self.mpr hx, Finset.sum_congr rfl hcons,
        Finset.sum_add_distrib, ih, Finset.sum_ite_eq l.toFinset x fun _ => 1,
        if_pos hx, List.length_cons]
    · rw [Finset.sum_insert hx, Finset.sum_congr rfl hcons, Finset.sum_add_distrib, ih,
        Finset.sum_ite_eq l.toFinset x fun _ => 1, if_neg hx, List.countP_cons]
      have hzero : l.countP (fun y => decide (y = x)) = 0 :=
        List.countP_eq_zero.mpr fun a ha hax =>
          hx (List.mem_toFinset.mpr ((decide_eq_true_eq.mp hax) ▸ ha))
      simp only [hzero, decide_eq_true_eq, if_true, List.length_cons]
      omega

/-- Every dictionary key of the feedback partition has a positive count. -/
lemma feedback_count_pos (l : List Str) (guess : Str) {fb : Nat × Int}
    (hfb : fb ∈ (l.map fun possible_secret =>
      evaluate_possible_secret guess possible_secret).toFinset) :
    0 < feedback_count l guess fb := by
  rw [feedback_count, List.countP_pos_iff]
  exact ⟨fb, List.mem_toFinset.mp hfb, by simp⟩

/-- Every count in the feedback partition is at most the total. -/
lemma feedback_count_le (l : List Str) (guess : Str) (fb : Nat × Int) :
    feedback_count l guess fb ≤ l.length := by
  rw [feedback_count]
  exact le_trans (List.countP_le_length _) (le_of_eq (List.length_map _ _))

/-- The counts of the feedback partition sum to the total. -/
lemma feedback_count_sum (l : List Str) (guess : Str) :
    ∑ fb ∈ (l.map fun possible_secret =>
        evaluate_possible_secret guess possible_secret).toFinset,
      feedback_count l guess fb = l.length := by
  rw [← List.length_map l fun possible_secret => evaluate_possible_secret guess possible_secret]
  exact sum_toFinset_countP_eq_length _

/-- The conditional entropy is non-negative: every bucket has at least one
element, so every `log2 count` is non-negative. -/
lemma conditional_entropy_nonneg (l : List Str) (guess : Str) :
    0 ≤ conditional_entropy l guess := by
  refine Finset.sum_nonneg fun fb hfb => ?_
  have h1 : (1 : ℝ) ≤ (feedback_count l guess fb : ℝ) := by
    exact_mod_cast feedback_count_pos l guess hfb
  exact mul_nonneg (div_nonneg (by positivity) (by positivity))
    (Real.logb_nonneg one_lt_two h1)

/-- The conditional entropy is at most `log2 total`: every bucket has at
most `total` elements and the bucket weights sum to one. -/
lemma conditional_entropy_le (l : List Str) (guess : Str) (hl : l ≠ []) :
    conditional_entropy l guess ≤ Real.logb 2 l.length := by
  have hn : 0 < l.length := List.length_pos.mpr hl
  have hn' : (0 : ℝ) < (l.length : ℝ) := by exact_mod_cast hn
  calc conditional_entropy l guess
      ≤ ∑ fb ∈ (l.map fun possible_secret =>
            evaluate_possible_secret guess possible_secret).toFinset,
          ((feedback_count l guess fb : ℝ) / (l.length : ℝ)) *
            Real.logb 2 l.length := by
        refine Finset.sum_le_sum fun fb hfb => ?_
        have h1 : (0 : ℝ) < (feedback_count l guess fb : ℝ) := by
          exact_mod_cast feedback_count_pos l guess hfb
        have h2 : (feedback_count l guess fb : ℝ) ≤ (l.length : ℝ) := by
          exact_mod_cast feedback_count_le l guess fb
        exact mul_le_mul_of_nonneg_left (Real.logb_le_logb_of_le one_lt_two h1 h2)
          (div_nonneg (by positivity) (by positivity))
    _ = Real.logb 2 l.length := by
        rw [← Finset.sum_mul, ← Finset.sum_div]
        rw [← Nat.cast_sum _ fun fb => feedback_count l guess fb, feedback_count_sum]
        rw [div_self hn'.ne']
        rw [one_mul]

/-- Mutual information is never negative. -/
lemma mutual_information_nonneg (l : List Str) (guess : Str) :
    0 ≤ calculate_mutual_information l guess := by
  rw [calculate_mutual_information]
  split_ifs with h
  · exact le_refl 0
  · have hn0 : l.length ≠ 0 := fun hn => h (by rw [hn, calculate_entropy_zero])
    have hl : l ≠ [] := fun hnil => hn0 (by rw [hnil]; rfl)
    rw [calculate_entropy_eq_logb hn0]
    have := conditional_entropy_le l guess hl
    linarith

/-- Mutual information never exceeds the current entropy. -/
lemma mutual_information_le (l : List Str) (guess : Str) :
    calculate_mutual_information l guess ≤ calculate_entropy l.length := by
  rw [calculate_mutual_information]
  split_ifs with h
  · rw [h]
  · have := conditional_entropy_nonneg l guess
    linarith

/-- On a candidate set of size 0 or 1 the mutual information is 0: the
`current_entropy == 0` early return fires. -/
lemma mutual_information_of_small {l : List Str} (h : l.length ≤ 1) (guess : Str) :
    calculate_mutual_information l guess = 0 := by
  rw [calculate_mutual_information]
  interval_cases hl : l.length
  · rw [if_pos calculate_entropy_zero]
  · rw [if_pos calculate_entropy_one]

/-- C4: for every guess and non-empty candidate set, the mutual
information lies between 0 and the entropy of the set's size, and on a
set of size 0 or 1 it is exactly 0. -/
theorem calculate_mutual_information_spec (l : List Str) (guess : Str) :
    (l ≠ [] → 0 ≤ calculate_mutual_information l guess ∧
      calculate_mutual_information l guess ≤ calculate_entropy l.length) ∧
    (l.length ≤ 1 → calculate_mutual_information l guess = 0) :=
  ⟨fun _ => ⟨mutual_information_nonneg l guess, mutual_information_le l guess⟩,
   fun h => mutual_information_of_small h guess⟩

/-! ### The suggestion engine (claim C6) -/

open Classical in
/-- The body of the `for guess in candidates` loop of
`BullsCows.suggest_guess`: update `(best_guess, max_info)` when
`info > max_info`, where `info` is the mutual information of `g` against
the full current candidate list `l`. -/
noncomputable def sg_step (l : List Str) (acc : Option Str × ℝ) (g : Str) : Option Str × ℝ :=
  if acc.2 < calculate_mutual_information l g
  then (some g, calculate_mutual_information l g) else acc

open Classical in
/-- `BullsCows.suggest_guess`: `None` if the candidate list is empty;
otherwise scan `candidates = self.possible_combinations[:500]` starting
from `best_guess = None`, `max_info = -1`, and return the final
`best_guess`. -/
noncomputable def suggest_guess (l : List Str) : Option Str :=
  if l.isEmpty then none
  else ((l.take 500).foldl (sg_step l) ((none : Option Str), (-1 : ℝ))).1

/-- The first loop iteration always replaces the initial
`(None, -1)` accumulator, because mutual information is never below 0. -/
lemma sg_first_step (l : List Str) (x : Str) :
    sg_step l ((none : Option Str), (-1 : ℝ)) x =
      (some x, calculate_mutual_information l x) := by
  simp only [sg_step]
  split_ifs with h
  · rfl
  · exfalso
    have := mutual_information_nonneg l x
    simp only [not_lt] at h
    linarith

/-- Invariant of the scan loop: starting from a current best `b`, the
loop returns the first strict-maximum of the remaining list (or keeps `b`
if nothing beats it). -/
lemma sg_foldl_spec (l : List Str) (xs : List Str) :
    ∀ b : Str, ∃ g : Str,
      xs.foldl (sg_step l) (some b, calculate_mutual_information l b) =
        (some g, calculate_mutual_information l g) ∧
      ((g = b ∧ ∀ x ∈ xs,
          calculate_mutual_information l x ≤ calculate_mutual_information l b) ∨
        ∃ pre post, xs = pre ++ g :: post ∧
          calculate_mutual_information l b < calculate_mutual_information l g ∧
          (∀ x ∈ pre,
            calculate_mutual_information l x < calculate_mutual_information l g) ∧
          (∀ x ∈ post,
            calculate_mutual_information l x ≤ calculate_mutual_information l g)) := by
  induction xs with
  | nil => exact fun b => ⟨b, rfl, Or.inl ⟨rfl, by simp⟩⟩
  | cons x xs ih =>
    intro b
    rw [List.foldl_cons]
    by_cases h : calculate_mutual_information l b < calculate_mutual_information l x
    · rw [show sg_step l (some b, calculate_mutual_information l b) x =
          (some x, calculate_mutual_information l x) from by
        simp only [sg_step]; rw [if_pos h]]
      obtain ⟨g, hfold, hcase⟩ := ih x
      refine ⟨g, hfold, ?_⟩
      rcases hcase with ⟨rfl, hall⟩ | ⟨pre, post, hxs, hlt, hpre, hpost⟩
      · exact Or.inr ⟨[], xs, rfl, h, by simp, hall⟩
      · refine Or.inr ⟨x :: pre, post, by rw [hxs]; rfl, lt_trans h hlt, ?_, hpost⟩
        intro y hy
        rcases List.mem_cons.mp hy with rfl | hy'
        · exact hlt
        · exact hpre y hy'
    · rw [show sg_step l (some b, calculate_mutual_information l b) x =
          (some b, calculate_mutual_information l b) from by
        simp only [sg_step]; rw [if_neg h]]
      obtain ⟨g, hfold, hcase⟩ := ih b
      refine ⟨g, hfold, ?_⟩
      rcases hcase with ⟨rfl, hall⟩ | ⟨pre, post, hxs, hlt, hpre, hpost⟩
      · refine Or.inl ⟨rfl, ?_⟩
        intro y hy
        rcases List.mem_cons.mp hy with rfl | hy'
        · exact le_of_not_lt h
        · exact hall y hy'
      · refine Or.inr ⟨x :: pre, post, by rw [hxs]; rfl, hlt, ?_, hpost⟩
        intro y hy
        rcases List.mem_cons.mp hy with rfl | hy'
        · exact lt_of_le_of_lt (le_of_not_lt h) hlt
        · exact hpre y hy'

/-- C6: `suggest_guess` returns `none` iff the candidate set is empty;
otherwise it returns the first code of the first-500 prefix attaining the
maximal mutual information over that prefix (mutual information being
evaluated against the full candidate set). -/
theorem suggest_guess_spec (l : List Str) :
    (suggest_guess l = none ↔ l = []) ∧
    (∀ g : Str, suggest_guess l = some g →
      ∃ pre post, l.take 500 = pre ++ g :: post ∧
        (∀ x ∈ pre,
          calculate_mutual_information l x < calculate_mutual_information l g) ∧
        (∀ x ∈ post,
          calculate_mutual_information l x ≤ calculate_mutual_information l g)) := by
  have h500 : (500 : Nat) = 499 + 1 := rfl
  cases l with
  | nil =>
    constructor
    · simp [suggest_guess]
    · intro g hg
      simp [suggest_guess] at hg
  | cons h t =>
    have hne : ¬(h :: t).isEmpty = true := by simp
    obtain ⟨g, hfold, hcase⟩ := sg_foldl_spec (h :: t) (t.take 499) h
    have hform : suggest_guess (h :: t) = some g := by
      rw [suggest_guess, if_neg hne, h500, List.take_succ_cons, List.foldl_cons,
        sg_first_step, hfold]
    constructor
    · constructor
      · intro hnone
        rw [hform] at hnone
        exact absurd hnone (Option.some_ne_none g)
      · intro heq
        exact absurd heq (List.cons_ne_nil h t)
    · intro g' hg'
      rw [hform] at hg'
      obtain rfl : g = g' := Option.some.inj hg'
      rcases hcase with ⟨rfl, hall⟩ | ⟨pre, post, hxs, hlt, hpre, hpost⟩
      · exact ⟨[], t.take 499, by rw [h500, List.take_succ_cons]; rfl, by simp, hall⟩
      · refine ⟨h :: pre, post, ?_, ?_, hpost⟩
        · rw [h500, List.take_succ_cons, hxs]
          rfl
        · intro x hx
          rcases List.mem_cons.mp hx with rfl | hx'
          · exact hlt
          · exact hpre x hx'

/-! ### The game session (claims C1, C2 and C5) -/

/-- The dict returned by `BullsCows.make_guess` for a valid guess. -/
structure TurnResult where
  bulls : Nat
  cows : Int
  previous_entropy : ℝ
  current_entropy : ℝ
  mutual_information : ℝ
  remaining_possibilities : Nat
  suggested_next_guess : Option Str

/-- The two possible returns of `make_guess`: the string
`"Invalid guess. Please enter 4 unique digits."` or the result dict. -/
inductive GuessResult where
  | validationError : GuessResult
  | turn : TurnResult → GuessResult

/-- The validation test of `make_guess`:
`len(guess) != 4 or len(set(guess)) != 4 or not guess.isnumeric()`
(`len(set(guess))` is the number of distinct characters). -/
def invalid_guess (guess : Str) : Bool :=
  guess.length != 4 || guess.dedup.length != 4 || !(isnumeric guess)

/-- `BullsCows.make_guess(guess)`: validate; compute feedback against the
secret; append to the history; record entropy before, mutual information
against the pre-prune candidate list; prune; record entropy after; suggest
a next guess only when `bulls < 4`; return the result dict and the mutated
state. -/
noncomputable def make_guess (st : BullsCowsState) (guess : Str) :
    GuessResult × BullsCowsState :=
  if invalid_guess guess then (GuessResult.validationError, st)
  else
    let fb := get_feedback st guess
    let st1 : BullsCowsState :=
      { st with guesses := st.guesses ++ [(guess, fb.1, fb.2)] }
    let previous_entropy := calculate_entropy st1.possible_combinations.length
    let mutual_info := calculate_mutual_information st1.possible_combinations guess
    let st2 : BullsCowsState :=
      { st1 with possible_combinations :=
          update_possibilities st1.possible_combinations guess fb.1 fb.2 }
    let current_entropy := calculate_entropy st2.possible_combinations.length
    let suggested := if fb.1 < 4 then suggest_guess st2.possible_combinations else none
    (GuessResult.turn
      { bulls := fb.1
        cows := fb.2
        previous_entropy := previous_entropy
        current_entropy := current_entropy
        mutual_information := mutual_info
        remaining_possibilities := st2.possible_combinations.length
        suggested_next_guess := suggested }, st2)

/-- An invalid guess is rejected with the state untouched. -/
lemma make_guess_invalid {st : BullsCowsState} {guess : Str}
    (h : invalid_guess guess = true) :
    make_guess st guess = (GuessResult.validationError, st) := by
  rw [make_guess, if_pos h]

/-- Shape of `make_guess` on a valid guess. -/
lemma make_guess_valid_def (st : BullsCowsState) {guess : Str}
    (h : invalid_guess guess = false) :
    ∃ r : TurnResult,
      (make_guess st guess).1 = GuessResult.turn r ∧
      r.bulls = (get_feedback st guess).1 ∧
      r.cows = (get_feedback st guess).2 ∧
      r.suggested_next_guess =
        (if (get_feedback st guess).1 < 4
         then suggest_guess (update_possibilities st.possible_combinations guess
            (get_feedback st guess).1 (get_feedback st guess).2)
         else none) ∧
      (make_guess st guess).2 =
        { possible_combinations := update_possibilities st.possible_combinations guess
            (get_feedback st guess).1 (get_feedback st guess).2
          secret := st.secret
          guesses := st.guesses ++ [(guess, (get_feedback st guess).1, (get_feedback st guess).2)] } := by
  rw [make_guess, if_neg (by rw [h]; exact Bool.false_ne_true)]
  exact ⟨_, rfl, rfl, rfl, rfl, rfl⟩

/-- A list repeats an element iff deduplication shortens it. -/
lemma dedup_length_eq_iff {α : Type} [DecidableEq α] (l : List α) :
    l.dedup.length = l.length ↔ l.Nodup := by
  constructor
  · intro h
    have hd := (List.dedup_sublist l).eq_of_length h
    rw [← hd]
    exact List.nodup_dedup l
  · intro h
    rw [List.dedup_eq_self.mpr h]

/-- The validation test passes exactly on the strings of four
pairwise-distinct numeric characters. -/
lemma invalid_guess_iff (guess : Str) :
    invalid_guess guess = false ↔
      guess.length = 4 ∧ guess.Nodup ∧ ∀ c ∈ guess, isNumericCp c = true := by
  simp only [invalid_guess, isnumeric, Bool.or_eq_false_iff, bne_eq_false_iff_eq,
    Bool.not_eq_false', Bool.and_eq_true, Bool.not_eq_true', List.all_eq_true]
  constructor
  · rintro ⟨⟨h1, h2⟩, -, h3⟩
    exact ⟨h1, (dedup_length_eq_iff guess).mp (by rw [h2, h1]), h3⟩
  · rintro ⟨h1, h2, h3⟩
    refine ⟨⟨h1, ?_⟩, ?_, h3⟩
    · rw [List.dedup_eq_self.mpr h2, h1]
    · rw [List.isEmpty_eq_false]
      intro hnil
      rw [hnil] at h1
      exact absurd h1 (by decide)

/-- C1 (amended): `make_guess` returns the validation error iff the raw
guess is not exactly 4 pairwise-distinct numeric characters (in the
sense of Python `str.isnumeric()` — a strictly larger class than the
decimal digits), and it then leaves the whole session state (candidates,
secret, history) unchanged. -/
theorem make_guess_validation (st : BullsCowsState) (guess : Str) :
    ((make_guess st guess).1 = GuessResult.validationError ↔
      ¬(guess.length = 4 ∧ guess.Nodup ∧ ∀ c ∈ guess, isNumericCp c = true)) ∧
    ((make_guess st guess).1 = GuessResult.validationError →
      (make_guess st guess).2 = st) := by
  by_cases h : invalid_guess guess
  · rw [make_guess_invalid h]
    refine ⟨iff_of_true rfl ?_, fun _ => rfl⟩
    intro hw
    rw [(invalid_guess_iff guess).mpr hw] at h
    exact Bool.false_ne_true h
  · have hf : invalid_guess guess = false := Bool.not_eq_true _ ▸ h
    obtain ⟨r, hr1, -, -, -, -⟩ := make_guess_valid_def st hf
    rw [hr1]
    constructor
    · refine iff_of_false (fun hc => GuessResult.noConfusion hc) ?_
      rw [not_not]
      exact (invalid_guess_iff guess).mp hf
    · intro hc
      exact absurd hc (fun hc => GuessResult.noConfusion hc)

/-- One `make_guess` step keeps the secret in the candidate list: the
pruning predicate holds of the secret because the observed feedback *is*
the feedback of the secret. -/
lemma make_guess_preserves_secret_mem {st : BullsCowsState}
    (h : st.secret ∈ st.possible_combinations) (guess : Str) :
    (make_guess st guess).2.secret = st.secret ∧
    st.secret ∈ (make_guess st guess).2.possible_combinations := by
  by_cases hv : invalid_guess guess
  · rw [make_guess_invalid hv]
    exact ⟨rfl, h⟩
  · have hf : invalid_guess guess = false := Bool.not_eq_true _ ▸ hv
    obtain ⟨r, -, -, -, -, hst2⟩ := make_guess_valid_def st hf
    rw [hst2]
    refine ⟨rfl, ?_⟩
    simp only [update_possibilities, List.mem_filter, decide_eq_true_eq]
    refine ⟨h, ?_⟩
    have hgf : evaluate_possible_secret guess st.secret = get_feedback st guess := rfl
    rw [hgf]

/-- C2: the secret starts in the full universe and survives every prune:
after any sequence of `make_guess` calls from a fresh session, the secret
is still a member of the candidate list. -/
theorem secret_never_pruned (secret : Str) (hs : secret ∈ generate_all_numbers)
    (gs : List Str) :
    (gs.foldl (fun st g => (make_guess st g).2) (BullsCows_init secret)).secret = secret ∧
    secret ∈ (gs.foldl (fun st g => (make_guess st g).2)
      (BullsCows_init secret)).possible_combinations := by
  suffices h : ∀ st : BullsCowsState, st.secret ∈ st.possible_combinations →
      (gs.foldl (fun st g => (make_guess st g).2) st).secret = st.secret ∧
      st.secret ∈ (gs.foldl (fun st g => (make_guess st g).2) st).possible_combinations by
    exact h (BullsCows_init secret) hs
  induction gs with
  | nil => exact fun st h => ⟨rfl, h⟩
  | cons g gs ih =>
    intro st h
    rw [List.foldl_cons]
    obtain ⟨h1, h2⟩ := make_guess_preserves_secret_mem h g
    rw [← h1] at h2
    obtain ⟨ih1, ih2⟩ := ih (make_guess st g).2 h2
    refine ⟨ih1.trans h1, ?_⟩
    rw [← h1]
    exact ih2

/-- The secret `"0123"`. -/
def code0123 : Str := [48, 49, 50, 51]

/-- Witness for C2 at the concrete secret `"0123"` and the empty guess
sequence. -/
theorem secret_never_pruned_witness :
    code0123 ∈ generate_all_numbers ∧
    (([] : List Str).foldl (fun st g => (make_guess st g).2)
      (BullsCows_init code0123)).secret = code0123 :=
  ⟨by decide, (secret_never_pruned code0123 (by decide) []).1⟩

/-- Witness for C8 at the concrete pair `"1234"` / `"4321"`. -/
theorem evaluate_possible_secret_bounds_witness :
    wellFormedCode [49, 50, 51, 52] ∧ wellFormedCode [52, 51, 50, 49] ∧
    (((evaluate_possible_secret [49, 50, 51, 52] [52, 51, 50, 49]).1 : Int) +
        (evaluate_possible_secret [49, 50, 51, 52] [52, 51, 50, 49]).2 = 4 ↔
      ∀ c ∈ ([49, 50, 51, 52] : Str), c ∈ ([52, 51, 50, 49] : Str)) :=
  ⟨by decide, by decide,
    (evaluate_possible_secret_bounds [49, 50, 51, 52] [52, 51, 50, 49]
      (by decide) (by decide)).2.2.2.2⟩

/-- C1 counterexample: the superscript string `"¹²³⁴"` (code points
185, 178, 179, 8308) is four pairwise-distinct numeric characters, so
the validation of `make_guess` accepts it and a full turn is processed —
yet it is not made of decimal digits.  The claimed "validation error iff
not 4 pairwise-distinct decimal digits" equivalence is therefore false
at this input. -/
theorem make_guess_validation_counterexample :
    ¬((make_guess (BullsCows_init code0123) [185, 178, 179, 8308]).1 =
        GuessResult.validationError ↔
      ¬(([185, 178, 179, 8308] : Str).length = 4 ∧
        ([185, 178, 179, 8308] : Str).Nodup ∧
        ∀ c ∈ ([185, 178, 179, 8308] : Str), isDigitCp c = true)) := by
  intro h
  obtain ⟨r, hr1, -, -, -, -⟩ := make_guess_valid_def (BullsCows_init code0123)
    (show invalid_guess ([185, 178, 179, 8308] : Str) = false by decide)
  have hfalse := h.mpr (by decide)
  rw [hr1] at hfalse
  exact GuessResult.noConfusion hfalse

/-- The literal `'quit'` command of the read loop. -/
def quit_cmd : Str := [113, 117, 105, 116]

/-- The literal `'exit'` command of the read loop. -/
def exit_cmd : Str := [101, 120, 105, 116]

/-- The `while True` read loop of `play_game`, applied to the successive
raw inputs: stop on `'quit'`/`'exit'`; on a validation error re-prompt
with the state unchanged; otherwise record the turn and stop as won when
`result['bulls'] == 4`. Returns the list of processed turns. -/
noncomputable def play_loop (st : BullsCowsState) : List Str → List TurnResult
  | [] => []
  | g :: rest =>
    if g = quit_cmd ∨ g = exit_cmd then []
    else
      match make_guess st g with
      | (GuessResult.validationError, st') => play_loop st' rest
      | (GuessResult.turn r, st') =>
        if r.bulls = 4 then [r] else r :: play_loop st' rest

/-- C5: a valid guess scoring `bulls == 4` ends the session as won: the
turn's suggestion is not computed (`None`), and no later input is
processed as a turn — the loop's transcript is `[r]` whatever comes
after. -/
theorem win_terminates_loop (st : BullsCowsState) (g : Str) (rest : List Str)
    (hvalid : invalid_guess g = false)
    (hwin : (get_feedback st g).1 = 4) :
    ∃ r : TurnResult, ∃ st' : BullsCowsState,
      make_guess st g = (GuessResult.turn r, st') ∧
      r.suggested_next_guess = none ∧
      play_loop st (g :: rest) = [r] := by
  obtain ⟨r, hr1, hb, -, hsug, -⟩ := make_guess_valid_def st hvalid
  have hpair : make_guess st g = (GuessResult.turn r, (make_guess st g).2) := by
    rw [← hr1]
  have hb4 : r.bulls = 4 := by rw [hb, hwin]
  refine ⟨r, (make_guess st g).2, hpair, ?_, ?_⟩
  · rw [hsug, hwin, if_neg (lt_irrefl 4)]
  · have hq : ¬(g = quit_cmd ∨ g = exit_cmd) := by
      rintro (rfl | rfl)
      · exact absurd hvalid (by decide)
      · exact absurd hvalid (by decide)
    rw [play_loop, if_neg hq, hpair]
    simp [hb4]

/-- Witness for C5: the fresh session with secret `"0123"` and the input
stream `["0123"]`. -/
theorem win_terminates_loop_witness :
    invalid_guess code0123 = false ∧
    (get_feedback (BullsCows_init code0123) code0123).1 = 4 ∧
    ∃ r : TurnResult, ∃ st' : BullsCowsState,
      make_guess (BullsCows_init code0123) code0123 = (GuessResult.turn r, st') ∧
      r.suggested_next_guess = none ∧
      play_loop (BullsCows_init code0123) [code0123] = [r] :=
  ⟨by decide, by decide,
    win_terminates_loop (BullsCows_init code0123) code0123 [] (by decide) (by decide)⟩

end BullsCows
